import Mathlib

/-!
Shallow embedding of the survey-report generator `app.py` (column-heuristic
classification plus aggregation over a spreadsheet export), together with
proofs about the embedded pipeline.

Modelling conventions:
* A cell is `Option String`: `none` is a missing value (pandas `NaN`); any
  non-missing cell is kept in its stringified form (the source applies
  `astype(str)` / `str(...)` before every operation we model).
* A table is an ordered list of `(column name, cell list)` pairs; column
  order is file order and names are unique (the spec's Response Table).
* Python regex character classes are modelled over characters:  `\w` is
  alphanumeric or underscore (ASCII fragment of Python's unicode classes),
  `\s` is the ASCII whitespace set.
* `pd.to_numeric(..., errors="coerce")` is modelled by a parser for the
  sign / digits / single-decimal-point fragment of Python float syntax;
  every string outside that fragment coerces to `none`, exactly the
  "unparseable becomes missing" behaviour the code relies on.
* `DataFrame.sort_values(..., ascending=False)` is modelled as a stable
  descending sort (pandas reverses, argsorts, and reverses back, which
  preserves first-seen order among ties), and `Series.value_counts()` as
  counts of the distinct values in first-occurrence order followed by the
  same stable descending sort.
-/

/-- Characters matched by the `\w` class of `EMAIL_RE` (ASCII fragment). -/
def wordChar (c : Char) : Bool :=
  c.isAlphanum || c = '_'

/-- Characters matched by the bracket class `[\w\.-]` of `EMAIL_RE`. -/
def isA (c : Char) : Bool :=
  wordChar c || c = '.' || c = '-'

/-- Characters matched by `\s` in `WHITESPACE_RE` (ASCII whitespace). -/
def isWs (c : Char) : Bool :=
  c = ' ' || c = '\t' || c = '\n' || c = '\r' || c = '\x0b' || c = '\x0c'

/-- The fixed redaction marker substituted for every e-mail match. -/
def markerStr : String := "[e-mail removido]"

/-- The redaction marker as a character list. -/
def markerL : List Char := markerStr.data

/-- Python `str.lower` on a character (ASCII fragment). -/
def lowerChar (c : Char) : Char := c.toLower

/-- Python `str.lower` (ASCII fragment). -/
def lowerStr (s : String) : String := String.mk (s.data.map lowerChar)

/-- Decides whether `pat` is a leading segment of `l` (used for the Python
`in` substring test). -/
def leadsList : List Char → List Char → Bool
  | [], _ => true
  | _ :: _, [] => false
  | a :: as, b :: bs => a = b && leadsList as bs

/-- Python `pat in s` substring containment on character lists. -/
def containsList (l pat : List Char) : Bool :=
  l.tails.any (leadsList pat)

/-- Python `pat in s` substring containment on strings. -/
def containsStr (s pat : String) : Bool :=
  containsList s.data pat.data

/-- Embeds `is_email_col`: the lowercased name contains "e-mail" or "email". -/
def isEmailCol (colname : String) : Bool :=
  let c := lowerStr colname
  containsStr c "e-mail" || containsStr c "email"

/-- Embeds `is_name_col`: the lowercased name equals "nome", or contains both
"nome" and "seu". -/
def isNameCol (colname : String) : Bool :=
  let c := lowerStr colname
  c = "nome" || (containsStr c "nome" && containsStr c "seu")

/-- Embeds `is_comment_col`: the lowercased name contains one of the fixed
comment keywords. -/
def isCommentCol (colname : String) : Bool :=
  let c := lowerStr colname
  ["coment", "sugest", "observa", "feedback", "melhoria", "deixe aqui"].any
    (fun k => containsStr c k)

/-- The ordered preference list of `guess_timestamp_col`. -/
def preferredTs : List String :=
  ["Carimbo de data/hora", "Timestamp", "Data/hora", "Data e hora"]

/-- Embeds `guess_timestamp_col`: outer loop over the preference list, inner
loop over the columns, first hit wins; `none` when nothing matches. -/
def guessTimestampCol (cols : List String) : Option String :=
  preferredTs.findSome? fun p =>
    cols.find? fun c => containsStr (lowerStr c) (lowerStr p)

/-- Embeds `nice_col`: names longer than 60 characters are cut to their first
57 characters followed by an ellipsis character. -/
def niceCol (col : String) : String :=
  if col.length ≤ 60 then col else String.mk (col.data.take 57) ++ "…"

/-! ### Text cleaning (`clean_text`)

`EMAIL_RE = [\w\.-]+@[\w\.-]+\.\w+` is substituted by the marker, then
`\s+` runs are collapsed to single spaces and the ends are stripped.
The e-mail matcher reproduces the regex engine's behaviour at one position:
the greedy local part must be the maximal `[\w\.-]` run (backtracking can
never expose the required `@`, which is outside the class), and the greedy
domain part backtracks to the last dot of the maximal run that is followed
by a `\w` character and has at least one run character before it. -/

/-- Tests whether a list starts with a `\w` character. -/
def headWord : List Char → Bool
  | d :: _ => wordChar d
  | [] => false

/-- Splits a character run at the last dot that is immediately followed by a
`\w` character: `lastDotSplit l = some (u, v)` with `l = u ++ '.' :: v` and
`v` starting with a word character, choosing the largest possible `u`. -/
def lastDotSplit : List Char → Option (List Char × List Char)
  | [] => none
  | c :: cs =>
    match lastDotSplit cs with
    | some (u, v) => some (c :: u, v)
    | none => if c = '.' && headWord cs then some ([], cs) else none

/-- Matches the domain part `[\w\.-]+\.\w+` of `EMAIL_RE` at the head of
`s`, returning the remainder of the string after the match. -/
def domainMatch (s : List Char) : Option (List Char) :=
  match lastDotSplit (s.takeWhile isA) with
  | some (u, v) =>
    if u.isEmpty then none else some (v.dropWhile wordChar ++ s.dropWhile isA)
  | none => none

/-- Matches the whole `EMAIL_RE` pattern at the head of `s`, returning the
remainder of the string after the match. -/
def matchEmail (s : List Char) : Option (List Char) :=
  match s.dropWhile isA with
  | '@' :: rest => if (s.takeWhile isA).isEmpty then none else domainMatch rest
  | _ => none

/-- Fuelled scanner for `EMAIL_RE.sub`: at each position try the pattern;
on a match emit the marker and resume after the match, otherwise copy one
character.  `subEmail` supplies enough fuel for the scan to finish. -/
def subEmailF : Nat → List Char → List Char
  | 0, s => s
  | _ + 1, [] => []
  | f + 1, c :: cs =>
    match matchEmail (c :: cs) with
    | some rest => markerL ++ subEmailF f rest
    | none => c :: subEmailF f cs

/-- Embeds `EMAIL_RE.sub("[e-mail removido]", s)`. -/
def subEmail (s : List Char) : List Char :=
  subEmailF s.length s

/-- Embeds `WHITESPACE_RE.sub(" ", s)`: every maximal `\s+` run becomes a
single space. -/
def collapseWs : List Char → List Char
  | [] => []
  | [c] => if isWs c then [' '] else [c]
  | c :: d :: cs =>
    if isWs c && isWs d then collapseWs (d :: cs)
    else (if isWs c then ' ' else c) :: collapseWs (d :: cs)

/-- Embeds Python `str.strip()`: removes leading and trailing whitespace. -/
def pyStrip (l : List Char) : List Char :=
  ((l.dropWhile isWs).reverse.dropWhile isWs).reverse

/-- Embeds the string path of `clean_text` on character lists. -/
def cleanTextL (l : List Char) : List Char :=
  pyStrip (collapseWs (subEmail l))

/-- Embeds `clean_text` on strings (the post-`dropna` call sites, where the
argument is never `None`). -/
def cleanTextStr (s : String) : String :=
  String.mk (cleanTextL s.data)

/-- Embeds `clean_text` on an optional cell: `None` maps to the empty
string, any other value is stringified and cleaned. -/
def cleanTextCell : Option String → String
  | none => ""
  | some s => cleanTextStr s

/-! ### Numeric coercion (`to_numeric_series`) and means -/

/-- Value of a digit list read in base 10. -/
def digitsVal (l : List Char) : Nat :=
  l.foldl (fun acc d => 10 * acc + (d.toNat - 48)) 0

/-- Parses an unsigned decimal: `d+`, `d+.d*` or `.d+` (the fragment of
Python float syntax exercised by the program; other forms coerce to
missing). -/
def parseUnsigned (l : List Char) : Option ℚ :=
  let intPart := l.takeWhile Char.isDigit
  match l.dropWhile Char.isDigit with
  | [] => if intPart.isEmpty then none else some (digitsVal intPart : ℚ)
  | '.' :: frac =>
    if frac.all Char.isDigit && !(intPart.isEmpty && frac.isEmpty) then
      some ((digitsVal intPart : ℚ) + (digitsVal frac : ℚ) / (10 : ℚ) ^ frac.length)
    else none
  | _ => none

/-- Parses an optionally signed decimal, `none` on anything unparseable
(the `errors="coerce"` behaviour of `pd.to_numeric`). -/
def parseNum : List Char → Option ℚ
  | '-' :: r => (parseUnsigned r).map Neg.neg
  | '+' :: r => parseUnsigned r
  | l => parseUnsigned l

/-- Python `str.replace(",", ".")` acts on every comma. -/
def commaToDot (c : Char) : Char :=
  if c = ',' then '.' else c

/-- Embeds `to_numeric_series`: stringified cells, all commas replaced by
dots, coerced to numbers with unparseable values becoming missing.  A
missing cell stringifies to `"nan"`, which coerces back to missing. -/
def toNumericSeries (col : List (Option String)) : List (Option ℚ) :=
  col.map fun c =>
    match c with
    | none => none
    | some s => parseNum (s.data.map commaToDot)

/-- The present (non-missing) values of a coerced series. -/
def presentVals (s : List (Option ℚ)) : List ℚ :=
  s.reduceOption

/-- Embeds `Series.mean()` with pandas NaN skipping: the arithmetic mean of
the present values, `none` (NaN) when every value is missing. -/
def meanOpt (s : List (Option ℚ)) : Option ℚ :=
  let p := presentVals s
  if p.isEmpty then none else some (p.sum / (p.length : ℚ))

/-- Embeds the `numeric_cols` membership test for one column: at least half
of the cells coerce to numbers and the distinct present values number at
most 20.  (`notna().mean()` of an empty series is NaN, and `NaN >= 0.5` is
false, hence the explicit nonemptiness conjunct.) -/
def isNumericCol (col : List (Option String)) : Bool :=
  let s := toNumericSeries col
  decide (0 < s.length) &&
    decide (s.length ≤ 2 * (presentVals s).length) &&
    decide ((presentVals s).dedup.length ≤ 20)

/-! ### The table model and the pipeline -/

/-- A response table: columns in file order, each a name with its cells. -/
abbrev Table := List (String × List (Option String))

/-- The column names of a table, in order. -/
def colNames (t : Table) : List String :=
  t.map Prod.fst

/-- Embeds `id_cols`: the columns classified Identifying. -/
def idCols (t : Table) : List String :=
  (colNames t).filter fun c => isEmailCol c || isNameCol c

/-- Embeds `df_work`: the original table with Identifying columns dropped
when anonymization is enabled. -/
def dfWork (t : Table) (hide : Bool) : Table :=
  if hide then t.filter (fun nc => !(isEmailCol nc.1 || isNameCol nc.1)) else t

/-- Embeds `numeric_cols`: the columns of `df_work` passing the numeric
indicator test, in column order. -/
def numericCols (w : Table) : List String :=
  (w.filter (fun nc => isNumericCol nc.2)).map Prod.fst

/-! ### Stable descending sort (`sort_values(ascending=False)` and the
sorted part of `value_counts()`) -/

/-- Inserts `x` into a descending-sorted list, before the first element
whose key does not exceed `x`'s: equal keys keep the earlier element
first. -/
def insOrd (key : α → ℚ) (x : α) : List α → List α
  | [] => [x]
  | y :: ys => if key y ≤ key x then x :: y :: ys else y :: insOrd key x ys

/-- Stable sort by a rational key, descending. -/
def sortKeyDesc (key : α → ℚ) (l : List α) : List α :=
  l.foldr (insOrd key) []

/-- Distinct values of a list in first-occurrence order (the order in which
the `value_counts` hash table meets them). -/
def firstDedup [DecidableEq α] : List α → List α
  | [] => []
  | a :: l => a :: (firstDedup l).filter (· ≠ a)

/-- Embeds `Series.value_counts()`: one `(value, count)` row per distinct
value, most frequent first, ties in first-occurrence order. -/
def valueCounts (l : List String) : List (String × Nat) :=
  sortKeyDesc (fun p => (p.2 : ℚ))
    ((firstDedup l).map fun v => (v, l.count v))

/-- The cleaned values of the non-missing cells of a column, in row order
(`dropna().astype(str).map(clean_text)`). -/
def cleanedList (col : List (Option String)) : List String :=
  (col.filterMap id).map cleanTextStr

/-- Embeds the `freq` frame for one selected question column. -/
def freqTable (col : List (Option String)) : List (String × Nat) :=
  valueCounts (cleanedList col)

/-- The rows of the `freq` frame before sorting: one per distinct cleaned
value in first-occurrence order, with its count. -/
def freqRows (col : List (Option String)) : List (String × Nat) :=
  (firstDedup (cleanedList col)).map fun v => (v, (cleanedList col).count v)

/-- Embeds `textual_cols`: original columns that are not numeric, not the
timestamp column, not comment columns, and not identifying when
anonymization is on. -/
def textualCols (t : Table) (hide : Bool) : List String :=
  (colNames t).filter fun c =>
    !((numericCols (dfWork t hide)).contains c) &&
      !(guessTimestampCol (colNames t) = some c : Bool) &&
      !(isCommentCol c) &&
      !(hide && (isEmailCol c || isNameCol c))

/-- Embeds `comment_cols`: the comment columns of the original table. -/
def commentCols (t : Table) : List String :=
  (colNames t).filter isCommentCol

/-- Embeds the `means` frame rows before sorting: one
`(nice_col label, mean)` row per numeric column of `w`, in column order
(columns whose mean is NaN would be skipped; the numeric test makes that
impossible). -/
def meansRows (w : Table) : List (String × ℚ) :=
  w.filterMap fun nc =>
    if isNumericCol nc.2 then
      (meanOpt (toNumericSeries nc.2)).map fun m => (niceCol nc.1, m)
    else none

/-- Embeds the `means` frame: rows sorted by mean, descending. -/
def meansTable (w : Table) : List (String × ℚ) :=
  sortKeyDesc (fun p => p.2) (meansRows w)

/-- Embeds the comment list for one comment column:
`dropna().astype(str).map(clean_text).tolist()`. -/
def commentsFor (col : List (Option String)) : List String :=
  cleanedList col

/-- What the comment section renders for one comment column. -/
inductive CommentView where
  | noComments : CommentView
  | items : List String → CommentView
deriving DecidableEq, Repr

/-- Embeds the per-column comment rendering: the "Sem comentários" state
when the cleaned list is empty, otherwise the first `maxComments`
entries. -/
def commentView (col : List (Option String)) (maxComments : Nat) : CommentView :=
  let cs := commentsFor col
  if cs.isEmpty then .noComments else .items (cs.take maxComments)

/-- What the whole comment section renders. -/
inductive CommentsSection where
  | emptyState : CommentsSection
  | perColumn : List (String × CommentView) → CommentsSection
deriving DecidableEq, Repr

/-- Embeds the comment section: one informational empty state when there is
no comment column, otherwise one view per comment column. -/
def commentsSection (t : Table) (maxComments : Nat) : CommentsSection :=
  if (commentCols t).isEmpty then .emptyState
  else .perColumn (t.filterMap fun nc =>
    if isCommentCol nc.1 then some (nc.1, commentView nc.2 maxComments) else none)

/-- A metric tile: a value or the "—" fallback. -/
inductive Metric where
  | na : Metric
  | val : ℚ → Metric
deriving DecidableEq, Repr

/-- Embeds the "Média de Pontuação" tile: mean of the first column whose
lowercased name contains "pontuação", "—" when there is no such column or
the mean is NaN. -/
def meanScoreMetric (t : Table) : Metric :=
  match t.find? (fun nc => containsStr (lowerStr nc.1) "pontuação") with
  | none => .na
  | some nc =>
    match meanOpt (toNumericSeries nc.2) with
    | none => .na
    | some q => .val q

/-! ### E-mail shapes (full-token reading of `EMAIL_RE`, used to state that
cleaned text never contains an e-mail-shaped substring) -/

/-- A token matching the whole of `EMAIL_RE`: a nonempty `[\w\.-]` local
part, an `@`, a nonempty `[\w\.-]` domain part, a dot and a nonempty `\w`
suffix. -/
def EmailShape (t : List Char) : Prop :=
  ∃ a b w : List Char,
    a ≠ [] ∧ (∀ c ∈ a, isA c = true) ∧
    b ≠ [] ∧ (∀ c ∈ b, isA c = true) ∧
    w ≠ [] ∧ (∀ c ∈ w, wordChar c = true) ∧
    t = a ++ '@' :: b ++ '.' :: w

/-- The list contains an e-mail-shaped substring. -/
def containsEmail (l : List Char) : Prop :=
  ∃ t, EmailShape t ∧ t <:+: l

/-- Boolean scan for an e-mail match: some suffix of `l` has a match of
`EMAIL_RE` at its head. -/
def hasEmailShape (l : List Char) : Bool :=
  l.tails.any fun t => (matchEmail t).isSome

/-! ### Concrete inputs used when settling the claims -/

/-- The example column of C2: `[1, 2, 1, 1, 2, missing]`. -/
def exC2 : List (Option String) :=
  [some "1", some "2", some "1", some "1", some "2", none]

/-- A table whose timestamp column holds small numeric values. -/
def tTs : Table := [("Timestamp", [some "1", some "2"])]

/-- A table with a single column that is both Identifying ("nome" and "seu"
in the name) and a comment column ("coment" in the name). -/
def tCmt : Table := [("Comente seu nome", [some "ok"])]

/-- A table with an "E-mail" column and one question column. -/
def tEm : Table := [("E-mail", [some "x@y.com"]), ("Q1", [some "5"])]

/-! ### Lemmas about the stable descending sort -/

theorem mem_insOrd (key : α → ℚ) (x : α) (l : List α) (a : α) :
    a ∈ insOrd key x l ↔ a = x ∨ a ∈ l := by
  induction l with
  | nil => simp [insOrd]
  | cons y ys ih =>
    by_cases h : key y ≤ key x
    · simp [insOrd, h]
    · simp [insOrd, h, ih]
      tauto

theorem perm_insOrd (key : α → ℚ) (x : α) (l : List α) :
    (insOrd key x l).Perm (x :: l) := by
  induction l with
  | nil => simp [insOrd]
  | cons y ys ih =>
    by_cases h : key y ≤ key x
    · simp [insOrd, h]
    · simp only [insOrd, h, if_neg]
      exact (ih.cons y).trans (List.Perm.swap x y ys)

theorem perm_sortKeyDesc (key : α → ℚ) (l : List α) :
    (sortKeyDesc key l).Perm l := by
  induction l with
  | nil => simp [sortKeyDesc]
  | cons y ys ih =>
    exact (perm_insOrd key y (sortKeyDesc key ys)).trans (ih.cons y)

theorem pairwise_insOrd (key : α → ℚ) (x : α) (l : List α)
    (h : l.Pairwise (fun a b => key b ≤ key a)) :
    (insOrd key x l).Pairwise (fun a b => key b ≤ key a) := by
  induction l with
  | nil => simp [insOrd]
  | cons y ys ih =>
    rcases List.pairwise_cons.mp h with ⟨hy, hys⟩
    by_cases hxy : key y ≤ key x
    · simp only [insOrd, if_pos hxy]
      refine List.pairwise_cons.mpr ⟨?_, h⟩
      intro b hb
      rcases List.mem_cons.mp hb with rfl | hb
      · exact hxy
      · exact le_trans (hy b hb) hxy
    · simp only [insOrd, if_neg hxy]
      refine List.pairwise_cons.mpr ⟨?_, ih hys⟩
      intro b hb
      rcases (mem_insOrd key x ys b).mp hb with rfl | hb
      · exact le_of_lt (lt_of_not_le hxy)
      · exact hy b hb

theorem pairwise_sortKeyDesc (key : α → ℚ) (l : List α) :
    (sortKeyDesc key l).Pairwise (fun a b => key b ≤ key a) := by
  induction l with
  | nil => exact List.Pairwise.nil
  | cons y ys ih => exact pairwise_insOrd key y (sortKeyDesc key ys) ih

theorem filter_insOrd (key : α → ℚ) (m : ℚ) (x : α) (l : List α) :
    (insOrd key x l).filter (fun a => decide (key a = m)) =
      if key x = m then x :: l.filter (fun a => decide (key a = m))
      else l.filter (fun a => decide (key a = m)) := by
  induction l with
  | nil => by_cases h : key x = m <;> simp [insOrd, List.filter, h]
  | cons y ys ih =>
    by_cases hxy : key y ≤ key x
    · simp only [insOrd, if_pos hxy]
      by_cases h : key x = m <;> simp [List.filter_cons, h]
    · have hyx : key x < key y := lt_of_not_le hxy
      simp only [insOrd, if_neg hxy]
      by_cases h : key x = m
      · have hy : ¬ key y = m := by
          intro hm
          exact absurd (hm.trans h.symm) (ne_of_gt hyx)
        simp [List.filter_cons, hy, ih, h]
      · by_cases hy : key y = m <;>
          simp [List.filter_cons, hy, ih, h]

theorem filter_sortKeyDesc (key : α → ℚ) (m : ℚ) (l : List α) :
    (sortKeyDesc key l).filter (fun a => decide (key a = m)) =
      l.filter (fun a => decide (key a = m)) := by
  induction l with
  | nil => rfl
  | cons y ys ih =>
    show (insOrd key y (sortKeyDesc key ys)).filter _ = _
    rw [filter_insOrd]
    by_cases h : key y = m <;> simp [List.filter_cons, h, ih]

theorem firstDedup_nodup [DecidableEq α] (l : List α) : (firstDedup l).Nodup := by
  induction l with
  | nil => exact List.nodup_nil
  | cons a l ih =>
    refine List.nodup_cons.mpr ⟨?_, ih.filter _⟩
    intro h
    have := List.of_mem_filter h
    simp at this

theorem mem_firstDedup [DecidableEq α] (l : List α) (a : α) :
    a ∈ firstDedup l ↔ a ∈ l := by
  induction l with
  | nil => simp [firstDedup]
  | cons b l ih =>
    by_cases h : a = b
    · simp [firstDedup, h]
    · simp [firstDedup, h, List.mem_filter, ih]

/-! ### Supporting lemmas for the pipeline -/

theorem presentVals_eq_nil (s : List (Option ℚ)) (h : ∀ x ∈ s, x = none) :
    presentVals s = [] := by
  induction s with
  | nil => rfl
  | cons a l ih =>
    have ha := h a (List.mem_cons_self a l)
    subst ha
    exact ih fun x hx => h x (List.mem_cons_of_mem _ hx)

theorem mem_colNames_of_mem_numericCols (w : Table) (c : String)
    (h : c ∈ numericCols w) : c ∈ colNames w := by
  unfold numericCols at h
  rcases List.mem_map.mp h with ⟨nc, hnc, rfl⟩
  exact List.mem_map.mpr ⟨nc, List.mem_of_mem_filter hnc, rfl⟩

/-- C2: a column is classified NumericIndicator exactly when at least half
of its cells coerce to numbers and the distinct present coerced values
number at most 20; the reported mean is the arithmetic mean of the present
values only, and the example column `[1,2,1,1,2,missing]` is numeric with
mean 1.4. -/
theorem C2_numeric_classification :
    (isNumericCol exC2 = true ∧
      meanOpt (toNumericSeries exC2) = some (7 / 5)) ∧
    ∀ col : List (Option String), 0 < col.length →
      ((isNumericCol col = true ↔
          (1 / 2 : ℚ) ≤ ((presentVals (toNumericSeries col)).length : ℚ) /
              (col.length : ℚ) ∧
            (presentVals (toNumericSeries col)).dedup.length ≤ 20) ∧
        (isNumericCol col = true →
          meanOpt (toNumericSeries col) =
            some ((presentVals (toNumericSeries col)).sum /
              ((presentVals (toNumericSeries col)).length : ℚ)))) := by
  constructor
  · refine ⟨by decide, ?_⟩
    have h1 : presentVals (toNumericSeries exC2) =
        [((1 : ℕ) : ℚ), ((2 : ℕ) : ℚ), ((1 : ℕ) : ℚ), ((1 : ℕ) : ℚ), ((2 : ℕ) : ℚ)] := rfl
    simp only [meanOpt, h1]
    norm_num
  intro col hlen
  have hmap : (toNumericSeries col).length = col.length := List.length_map _ _
  have harith : ∀ pn n : ℕ, 0 < n →
      ((n ≤ 2 * pn) ↔ (1 / 2 : ℚ) ≤ (pn : ℚ) / (n : ℚ)) := by
    intro pn n hn
    have hn' : (0 : ℚ) < (n : ℚ) := by exact_mod_cast hn
    rw [le_div_iff₀ hn']
    constructor
    · intro h
      have h' : (n : ℚ) ≤ 2 * (pn : ℚ) := by exact_mod_cast h
      linarith
    · intro h
      have h' : (n : ℚ) ≤ 2 * (pn : ℚ) := by linarith
      exact_mod_cast h'
  constructor
  · unfold isNumericCol
    simp only [Bool.and_eq_true, decide_eq_true_eq, hmap]
    constructor
    · rintro ⟨⟨-, h2⟩, h3⟩
      exact ⟨(harith _ _ hlen).mp h2, h3⟩
    · rintro ⟨h2, h3⟩
      exact ⟨⟨hlen, (harith _ _ hlen).mpr h2⟩, h3⟩
  · intro hnum
    unfold isNumericCol at hnum
    simp only [Bool.and_eq_true, decide_eq_true_eq, hmap] at hnum
    have hpos : 0 < (presentVals (toNumericSeries col)).length := by
      rcases hnum with ⟨⟨-, h2⟩, -⟩
      omega
    unfold meanOpt
    rw [if_neg]
    simp only [List.isEmpty_iff]
    intro hnil
    rw [hnil] at hpos
    simp at hpos

/-- C2 witness: the general statement applied to the example column. -/
theorem C2_witness :
    0 < exC2.length ∧
      ((isNumericCol exC2 = true ↔
          (1 / 2 : ℚ) ≤ ((presentVals (toNumericSeries exC2)).length : ℚ) /
              (exC2.length : ℚ) ∧
            (presentVals (toNumericSeries exC2)).dedup.length ≤ 20) ∧
        (isNumericCol exC2 = true →
          meanOpt (toNumericSeries exC2) =
            some ((presentVals (toNumericSeries exC2)).sum /
              ((presentVals (toNumericSeries exC2)).length : ℚ)))) :=
  ⟨by decide, C2_numeric_classification.2 exC2 (by decide)⟩

/-- C4: the numeric-indicator table is sorted by mean descending, is a
permutation of the per-column rows, and rows of equal mean keep first-seen
column order (stability, expressed by filtering at each mean value). -/
theorem C4_means_sorted_stable :
    ∀ w : Table,
      (meansTable w).Pairwise (fun p q => q.2 ≤ p.2) ∧
      (meansTable w).Perm (meansRows w) ∧
      ∀ m : ℚ, (meansTable w).filter (fun p => decide (p.2 = m)) =
        (meansRows w).filter (fun p => decide (p.2 = m)) := by
  intro w
  refine ⟨pairwise_sortKeyDesc _ _, perm_sortKeyDesc _ _, ?_⟩
  intro m
  exact filter_sortKeyDesc (fun p => p.2) m (meansRows w)

/-- C10: `to_numeric_series` stringifies, replaces every comma by a dot and
then parses: "1,234" coerces to 1.234 (not 1234) and "1,234.5" — two dots
after replacement — coerces to missing. -/
theorem C10_comma_replacement :
    (∀ s : String, toNumericSeries [some s] = [parseNum (s.data.map commaToDot)]) ∧
    toNumericSeries [some "1,234"] = [some (1234 / 1000)] ∧
    toNumericSeries [some "1,234.5"] = [none] ∧
    toNumericSeries [some "1,2,3"] = [none] := by
  refine ⟨fun s => rfl, ?_, rfl, rfl⟩
  have h : toNumericSeries [some "1,234"] =
      [some (((1 : ℕ) : ℚ) + ((234 : ℕ) : ℚ) / (10 : ℚ) ^ (3 : ℕ))] := rfl
  rw [h]
  norm_num

/-- C3 counterexample: a non-missing whitespace-only cell cleans to the
empty string, which `value_counts` keeps as a category, so the frequency
rows are not restricted to non-empty cleaned values. -/
theorem C3_counterexample :
    freqTable [some "Yes", some " "] = [("Yes", 1), ("", 1)] ∧
      "" ∈ (freqTable [some "Yes", some " "]).map Prod.fst := by
  exact ⟨by decide, by decide⟩

/-- C3 (amended): the frequency table has one row per distinct cleaned
value of the non-missing cells (the empty string included when a
non-missing cell cleans to empty), counts only non-missing cells, is
ordered most frequent first, and ties keep first-occurrence order; the
`["Yes","No","Yes","Yes"]` example yields `[("Yes",3),("No",1)]`. -/
theorem C3_freq_behaviour :
    (∀ col : List (Option String),
      ((freqTable col).map Prod.fst).Nodup ∧
      ((freqTable col).map Prod.fst).Perm (firstDedup (cleanedList col)) ∧
      (∀ p ∈ freqTable col, p.1 ∈ cleanedList col ∧
        p.2 = (cleanedList col).count p.1) ∧
      (freqTable col).Pairwise (fun p q => q.2 ≤ p.2) ∧
      (∀ n : Nat, (freqTable col).filter (fun p => decide (p.2 = n)) =
        (freqRows col).filter (fun p => decide (p.2 = n)))) ∧
    freqTable [some "Yes", some "No", some "Yes", some "Yes"] =
      [("Yes", 3), ("No", 1)] := by
  constructor
  · intro col
    have hdef : freqTable col = sortKeyDesc (fun p => ((p.2 : ℕ) : ℚ)) (freqRows col) := rfl
    have hperm : (freqTable col).Perm (freqRows col) := by
      rw [hdef]; exact perm_sortKeyDesc _ _
    have hfst : (freqRows col).map Prod.fst = firstDedup (cleanedList col) := by
      rw [freqRows, List.map_map]
      exact List.map_id _
    have hmapperm : ((freqTable col).map Prod.fst).Perm (firstDedup (cleanedList col)) := by
      rw [← hfst]; exact hperm.map Prod.fst
    refine ⟨?_, hmapperm, ?_, ?_, ?_⟩
    · exact (hmapperm.nodup_iff).mpr (firstDedup_nodup _)
    · intro p hp
      have hp' : p ∈ freqRows col := hperm.mem_iff.mp hp
      rcases List.mem_map.mp hp' with ⟨v, hv, rfl⟩
      exact ⟨(mem_firstDedup _ _).mp hv, rfl⟩
    · have h := pairwise_sortKeyDesc (fun p : String × Nat => ((p.2 : ℕ) : ℚ)) (freqRows col)
      rw [← hdef] at h
      exact h.imp fun hq => by exact_mod_cast hq
    · intro n
      have hfc : ∀ L : List (String × Nat),
          L.filter (fun p => decide (p.2 = n)) =
            L.filter (fun p => decide (((p.2 : ℕ) : ℚ) = ((n : ℕ) : ℚ))) := by
        intro L
        apply List.filter_congr
        intro a _
        apply decide_eq_decide.mpr
        exact ⟨fun h => by exact_mod_cast h, fun h => by exact_mod_cast h⟩
      rw [hfc, hfc, hdef]
      exact filter_sortKeyDesc _ _ _
  · decide

/-- C5 counterexample: a column named "Timestamp" with small numeric values
is designated the timestamp column, yet passes the numeric indicator test
and thus belongs to the NumericIndicator set. -/
theorem C5_counterexample :
    guessTimestampCol (colNames tTs) = some "Timestamp" ∧
      "Timestamp" ∈ numericCols (dfWork tTs true) ∧
      "Timestamp" ∈ numericCols (dfWork tTs false) := by
  exact ⟨by decide, by decide, by decide⟩

/-- C5 (amended): the designated timestamp column is excluded from the
Categorical (textual) set, but it is not excluded from the NumericIndicator
set. -/
theorem C5_ts_not_textual :
    ∀ (t : Table) (hide : Bool) (c : String),
      guessTimestampCol (colNames t) = some c → c ∉ textualCols t hide := by
  intro t hide c hts hmem
  unfold textualCols at hmem
  rw [List.mem_filter] at hmem
  have h2 := hmem.2
  simp only [Bool.and_eq_true, Bool.not_eq_true', decide_eq_false_iff_not] at h2
  exact h2.1.1.2 hts

/-- C5 witness: the amended statement applied to the timestamp table. -/
theorem C5_witness :
    guessTimestampCol (colNames tTs) = some "Timestamp" ∧
      "Timestamp" ∉ textualCols tTs true :=
  ⟨by decide, C5_ts_not_textual tTs true "Timestamp" (by decide)⟩

/-- C1 counterexample: a column whose name matches both the Identifying and
the comment predicates is dropped from the working table, yet the comment
section is built from the original table by the comment predicate alone, so
with anonymization enabled the column still feeds the comment aggregator. -/
theorem C1_counterexample :
    isNameCol "Comente seu nome" = true ∧
      "Comente seu nome" ∉ colNames (dfWork tCmt true) ∧
      "Comente seu nome" ∈ commentCols tCmt ∧
      commentsSection tCmt 30 =
        CommentsSection.perColumn
          [("Comente seu nome", CommentView.items ["ok"])] := by
  exact ⟨by decide, by decide, by decide, by decide⟩

/-- C1 (amended): with anonymization enabled an Identifying column is
absent from the working table (hence from the numeric aggregator's input
and the raw-table output) and from the categorical candidate set, and it is
absent from the comment aggregator's input whenever it does not also match
the comment predicate; "E-mail" is identifying and not comment-like. -/
theorem C1_anonymization :
    (∀ (t : Table) (c : String), (isEmailCol c || isNameCol c) = true →
      c ∉ colNames (dfWork t true) ∧
        c ∉ numericCols (dfWork t true) ∧
        c ∉ textualCols t true ∧
        (isCommentCol c = false → c ∉ commentCols t)) ∧
    isEmailCol "E-mail" = true ∧ isCommentCol "E-mail" = false := by
  refine ⟨?_, by decide, by decide⟩
  intro t c hid
  have hwork : c ∉ colNames (dfWork t true) := by
    intro hmem
    rcases List.mem_map.mp hmem with ⟨nc, hnc, rfl⟩
    have hnc' : nc ∈ t.filter (fun nc => !(isEmailCol nc.1 || isNameCol nc.1)) := hnc
    have hf := (List.mem_filter.mp hnc').2
    rw [hid] at hf
    simp at hf
  refine ⟨hwork, ?_, ?_, ?_⟩
  · intro hmem
    exact hwork (mem_colNames_of_mem_numericCols _ _ hmem)
  · intro hmem
    unfold textualCols at hmem
    rw [List.mem_filter] at hmem
    have h2 := hmem.2
    simp only [Bool.and_eq_true, Bool.not_eq_true'] at h2
    have h4 := h2.2
    rw [Bool.true_and, hid] at h4
    cases h4
  · intro hcmt hmem
    unfold commentCols at hmem
    have := List.of_mem_filter hmem
    rw [hcmt] at this
    cases this

/-- C1 witness: the amended statement applied to a table with an "E-mail"
column. -/
theorem C1_witness :
    (isEmailCol "E-mail" || isNameCol "E-mail") = true ∧
      ("E-mail" ∉ colNames (dfWork tEm true) ∧
        "E-mail" ∉ numericCols (dfWork tEm true) ∧
        "E-mail" ∉ textualCols tEm true ∧
        (isCommentCol "E-mail" = false → "E-mail" ∉ commentCols tEm)) :=
  ⟨by decide, C1_anonymization.1 tEm "E-mail" (by decide)⟩

/-- C9 counterexample: a column whose only cell is a whitespace string has
zero non-empty cleaned comments, yet the section renders an item list with
an empty entry instead of the "no comments" state, and the listed entries
are not restricted to non-empty strings. -/
theorem C9_counterexample :
    commentView [some " "] 30 = CommentView.items [""] ∧
      (commentsFor [some " "]).filter (fun s => decide (s ≠ "")) = [] := by
  exact ⟨by decide, by decide⟩

/-- C9 (amended): a comment column renders the cleaned strings of its
non-missing cells in row order capped at the configured maximum (empty
strings included); the "no comments" state appears exactly when the column
has no non-missing cell; with zero comment columns the section renders the
single informational empty state. -/
theorem C9_comments_behaviour :
    (∀ (col : List (Option String)) (m : Nat),
      (commentView col m = CommentView.noComments ↔ col.filterMap id = []) ∧
      (col.filterMap id ≠ [] →
        commentView col m =
          CommentView.items (((col.filterMap id).map cleanTextStr).take m))) ∧
    ∀ (t : Table) (m : Nat), commentCols t = [] →
      commentsSection t m = CommentsSection.emptyState := by
  constructor
  · intro col m
    by_cases h : col.filterMap id = []
    · constructor
      · constructor
        · intro _; exact h
        · intro _
          unfold commentView commentsFor cleanedList
          rw [h]
          rfl
      · intro hne; exact absurd h hne
    · have hne : ¬ (commentsFor col).isEmpty = true := by
        unfold commentsFor cleanedList
        rw [List.isEmpty_iff, List.map_eq_nil_iff]
        exact h
      constructor
      · constructor
        · intro hv
          unfold commentView at hv
          rw [if_neg hne] at hv
          cases hv
        · intro h'; exact absurd h' h
      · intro _
        unfold commentView
        rw [if_neg hne]
        rfl
  · intro t m h
    unfold commentsSection
    rw [if_pos]
    rw [List.isEmpty_iff]
    exact h

/-- C9 witness: the amended statement applied to concrete columns. -/
theorem C9_witness :
    ((([some "hi"] : List (Option String)).filterMap id ≠ [] ∧
      commentView [some "hi"] 30 =
        CommentView.items (((([some "hi"] : List (Option String)).filterMap id).map
          cleanTextStr).take 30)) ∧
      (commentView ([none] : List (Option String)) 30 = CommentView.noComments ↔
        ([none] : List (Option String)).filterMap id = [])) ∧
    (commentCols [("Q1", [some "5"])] = [] ∧
      commentsSection [("Q1", [some "5"])] 30 = CommentsSection.emptyState) :=
  ⟨⟨⟨by decide, (C9_comments_behaviour.1 [some "hi"] 30).2 (by decide)⟩,
    (C9_comments_behaviour.1 [none] 30).1⟩,
    ⟨by decide, C9_comments_behaviour.2 [("Q1", [some "5"])] 30 (by decide)⟩⟩

/-- C8: numeric coercion sends "4,5" to 4.5 and unparseable or empty input
to missing; a defined mean is the sum of the present values over their
count, every-value-missing yields an undefined mean, and an all-missing
score column renders the "—" fallback metric. -/
theorem C8_missing_propagation :
    toNumericSeries [some "4,5"] = [some (9 / 2)] ∧
    toNumericSeries [some "n/a", some ""] = [none, none] ∧
    (∀ (s : List (Option ℚ)) (q : ℚ), meanOpt s = some q →
      presentVals s ≠ [] ∧
        q = (presentVals s).sum / ((presentVals s).length : ℚ)) ∧
    (∀ s : List (Option ℚ), (∀ x ∈ s, x = none) → meanOpt s = none) ∧
    (∀ (name : String) (col : List (Option String)),
      containsStr (lowerStr name) "pontuação" = true →
      (∀ x ∈ toNumericSeries col, x = none) →
      meanScoreMetric [(name, col)] = Metric.na) := by
  refine ⟨?_, rfl, ?_, ?_, ?_⟩
  · have h : toNumericSeries [some "4,5"] =
        [some (((4 : ℕ) : ℚ) + ((5 : ℕ) : ℚ) / (10 : ℚ) ^ (1 : ℕ))] := rfl
    rw [h]
    norm_num
  · intro s q hq
    unfold meanOpt at hq
    by_cases h : (presentVals s).isEmpty = true
    · rw [if_pos h] at hq
      cases hq
    · rw [if_neg h] at hq
      refine ⟨by simpa [List.isEmpty_iff] using h, ?_⟩
      exact (Option.some_inj.mp hq).symm
  · intro s h
    unfold meanOpt
    rw [if_pos]
    rw [List.isEmpty_iff]
    exact presentVals_eq_nil s h
  · intro name col hname hmiss
    unfold meanScoreMetric
    have hfind : ([(name, col)] : Table).find?
        (fun nc => containsStr (lowerStr nc.1) "pontuação") = some (name, col) := by
      simp [List.find?, hname]
    rw [hfind]
    have hmean : meanOpt (toNumericSeries col) = none := by
      unfold meanOpt
      rw [if_pos]
      rw [List.isEmpty_iff]
      exact presentVals_eq_nil _ hmiss
    show (match meanOpt (toNumericSeries col) with
      | none => Metric.na
      | some q => Metric.val q) = Metric.na
    rw [hmean]

/-- C8 witness: the statement applied to a concrete score column of
missing values and to a concrete defined mean. -/
theorem C8_witness :
    (meanOpt [some (3 : ℚ)] = some 3 →
      presentVals [some (3 : ℚ)] ≠ [] ∧
        (3 : ℚ) = (presentVals [some (3 : ℚ)]).sum /
          ((presentVals [some (3 : ℚ)]).length : ℚ)) ∧
    (containsStr (lowerStr "Pontuação total") "pontuação" = true ∧
      meanScoreMetric [("Pontuação total", [some "n/a"])] = Metric.na) :=
  ⟨fun h => C8_missing_propagation.2.2.1 [some (3 : ℚ)] 3 h,
    ⟨by decide,
      C8_missing_propagation.2.2.2.2 "Pontuação total" [some "n/a"]
        (by decide) (by decide)⟩⟩

/-! ### Lemmas about the e-mail scanner -/

theorem lastDotSplit_eq (l u v : List Char) (h : lastDotSplit l = some (u, v)) :
    l = u ++ '.' :: v ∧ ∃ d w, v = d :: w ∧ wordChar d = true := by
  induction l generalizing u v with
  | nil => simp [lastDotSplit] at h
  | cons c cs ih =>
    rw [lastDotSplit] at h
    cases hrec : lastDotSplit cs with
    | some p =>
      rcases p with ⟨u0, v0⟩
      rw [hrec] at h
      obtain ⟨rfl, rfl⟩ : c :: u0 = u ∧ v0 = v := by
        have h' := Option.some_inj.mp h
        exact ⟨congrArg Prod.fst h', congrArg Prod.snd h'⟩
      rcases ih u0 v0 hrec with ⟨hcs, hd⟩
      constructor
      · rw [hcs]; rfl
      · exact hd
    | none =>
      rw [hrec] at h
      by_cases hc : (c = '.' && headWord cs) = true
      · rw [if_pos hc] at h
        obtain ⟨rfl, rfl⟩ : ([] : List Char) = u ∧ cs = v := by
          have h' := Option.some_inj.mp h
          exact ⟨congrArg Prod.fst h', congrArg Prod.snd h'⟩
        simp only [Bool.and_eq_true] at hc
        obtain ⟨hc1, hc2⟩ := hc
        have hc1' : c = '.' := by simpa using hc1
        subst hc1'
        cases cs with
        | nil => simp [headWord] at hc2
        | cons d w => exact ⟨rfl, d, w, rfl, hc2⟩
      · rw [if_neg hc] at h
        cases h

theorem length_split (p : Char → Bool) (s : List Char) :
    (s.takeWhile p).length + (s.dropWhile p).length = s.length := by
  conv_rhs => rw [← List.takeWhile_append_dropWhile p s]
  rw [List.length_append]

theorem dropWhile_length_le (p : Char → Bool) (l : List Char) :
    (l.dropWhile p).length ≤ l.length := by
  induction l with
  | nil => simp
  | cons c cs ih =>
    rw [List.dropWhile_cons]
    by_cases h : p c = true
    · rw [if_pos h]
      exact le_trans ih (Nat.le_succ _)
    · rw [if_neg h]

theorem domainMatch_length (s r : List Char) (h : domainMatch s = some r) :
    r.length ≤ s.length := by
  rw [domainMatch] at h
  split at h
  · rename_i u v hld
    split at h
    · cases h
    · have hr : v.dropWhile wordChar ++ s.dropWhile isA = r := Option.some_inj.mp h
      have hrun := (lastDotSplit_eq _ _ _ hld).1
      have h1 : (v.dropWhile wordChar).length ≤ v.length := dropWhile_length_le _ _
      have h2 : v.length ≤ (s.takeWhile isA).length := by
        rw [hrun, List.length_append]
        simp only [List.length_cons]
        omega
      have h3 := length_split isA s
      rw [← hr, List.length_append]
      omega
  · cases h

theorem matchEmail_length (s r : List Char) (h : matchEmail s = some r) :
    r.length < s.length := by
  rw [matchEmail] at h
  split at h
  · rename_i rest hdw
    split at h
    · cases h
    · rename_i hrun
      have h1 : r.length ≤ rest.length := domainMatch_length _ _ h
      have h2 := length_split isA s
      have h3 : 1 ≤ (s.takeWhile isA).length := by
        cases hc : s.takeWhile isA with
        | nil => rw [hc] at hrun; simp at hrun
        | cons y ys => simp
      have h4 : (s.dropWhile isA).length = rest.length + 1 := by rw [hdw]; rfl
      omega
  · cases h

theorem subEmailF_irrel (f : Nat) :
    ∀ s : List Char, s.length ≤ f → subEmailF f s = subEmail s := by
  induction f using Nat.strong_induction_on with
  | _ f ih =>
    intro s hs
    cases s with
    | nil =>
      cases f with
      | zero => rfl
      | succ g => rfl
    | cons c cs =>
      cases f with
      | zero => simp at hs
      | succ g =>
        have hg : cs.length ≤ g := by
          have : cs.length + 1 ≤ g + 1 := hs
          omega
        show (match matchEmail (c :: cs) with
          | some rest => markerL ++ subEmailF g rest
          | none => c :: subEmailF g cs) =
          (match matchEmail (c :: cs) with
          | some rest => markerL ++ subEmailF cs.length rest
          | none => c :: subEmailF cs.length cs)
        cases hm : matchEmail (c :: cs) with
        | none =>
          simp only []
          rw [ih g (Nat.lt_succ_self g) cs hg,
            ih cs.length (by omega) cs (le_refl _)]
        | some rest =>
          simp only []
          have hrest : rest.length ≤ cs.length := by
            have := matchEmail_length _ _ hm
            simp only [List.length_cons] at this
            omega
          rw [ih g (Nat.lt_succ_self g) rest (le_trans hrest hg),
            ih cs.length (by omega) rest hrest]

theorem subEmail_nil : subEmail [] = [] := rfl

theorem subEmail_cons (c : Char) (cs : List Char) :
    subEmail (c :: cs) =
      match matchEmail (c :: cs) with
      | some rest => markerL ++ subEmail rest
      | none => c :: subEmail cs := by
  show (match matchEmail (c :: cs) with
    | some rest => markerL ++ subEmailF cs.length rest
    | none => c :: subEmailF cs.length cs) = _
  cases hm : matchEmail (c :: cs) with
  | none =>
    simp only []
    rw [subEmailF_irrel cs.length cs (le_refl _)]
  | some rest =>
    simp only []
    have hrest : rest.length ≤ cs.length := by
      have := matchEmail_length _ _ hm
      simp only [List.length_cons] at this
      omega
    rw [subEmailF_irrel cs.length rest hrest]

theorem markerL_eq : markerL = '[' :: "e-mail removido]".data := rfl

theorem subEmail_cons_pre (s : List Char) (x : Char) (xs : List Char)
    (h : (x :: xs) <+: subEmail s) :
    x = '[' ∨
      ∃ cs, s = x :: cs ∧ matchEmail (x :: cs) = none ∧ xs <+: subEmail cs := by
  cases s with
  | nil =>
    obtain ⟨t, ht⟩ := h
    rw [subEmail_nil] at ht
    cases ht
  | cons c cs =>
    rw [subEmail_cons] at h
    cases hm : matchEmail (c :: cs) with
    | some rest =>
      rw [hm] at h
      left
      obtain ⟨t, ht⟩ := h
      have ht2 : x :: (xs ++ t) = markerL ++ subEmail rest := by simpa using ht
      rw [markerL_eq, List.cons_append] at ht2
      exact ((List.cons.injEq _ _ _ _).mp ht2).1
    | none =>
      rw [hm] at h
      right
      obtain ⟨t, ht⟩ := h
      have ht' : x :: (xs ++ t) = c :: subEmail cs := by simpa using ht
      obtain ⟨hx, hrest⟩ := (List.cons.injEq _ _ _ _).mp ht'
      subst hx
      exact ⟨cs, rfl, hm, t, hrest⟩

theorem isA_of_word (c : Char) (h : wordChar c = true) : isA c = true := by
  simp [isA, h]

theorem dotword_transfer (bp : List Char) (hall : ∀ c ∈ bp, isA c = true)
    (w : List Char) (hw : w ≠ []) (hwall : ∀ c ∈ w, wordChar c = true) :
    ∀ s : List Char, (bp ++ '.' :: w) <+: subEmail s →
    ∃ u d v, s = u ++ '.' :: d :: v ∧ (∀ c ∈ u, isA c = true) ∧
      wordChar d = true ∧ bp.length ≤ u.length := by
  induction bp with
  | nil =>
    intro s hpre
    cases w with
    | nil => exact absurd rfl hw
    | cons d w2 =>
      have hpre' : ('.' :: d :: w2) <+: subEmail s := by simpa using hpre
      rcases subEmail_cons_pre s '.' (d :: w2) hpre' with hbr | ⟨cs, rfl, hnm, hpre2⟩
      · exact absurd hbr (by decide)
      · rcases subEmail_cons_pre cs d w2 hpre2 with hbr2 | ⟨cs2, rfl, hnm2, hpre3⟩
        · have hd := hwall d (by simp)
          rw [hbr2] at hd
          exact absurd hd (by decide)
        · exact ⟨[], d, cs2, rfl, by simp, hwall d (by simp), by simp⟩
  | cons c bp2 ih =>
    intro s hpre
    have hpre' : (c :: (bp2 ++ '.' :: w)) <+: subEmail s := hpre
    rcases subEmail_cons_pre s c _ hpre' with hbr | ⟨cs, rfl, hnm, hpre2⟩
    · have hc := hall c (by simp)
      rw [hbr] at hc
      exact absurd hc (by decide)
    · rcases ih (fun x hx => hall x (by simp [hx])) cs hpre2 with
        ⟨u, d, v, rfl, hu, hd, hlen⟩
      refine ⟨c :: u, d, v, rfl, ?_, hd, by simpa using Nat.succ_le_succ hlen⟩
      intro x hx
      rcases List.mem_cons.mp hx with rfl | hx2
      · exact hall x (by simp)
      · exact hu x hx2

theorem lastDotSplit_cons (c : Char) (cs : List Char) :
    lastDotSplit (c :: cs) =
      match lastDotSplit cs with
      | some (u, v) => some (c :: u, v)
      | none => if c = '.' && headWord cs then some ([], cs) else none := by
  rw [lastDotSplit]

theorem lastDotSplit_after (p : List Char) :
    ∀ (l q : List Char) (d : Char), l = p ++ '.' :: d :: q → wordChar d = true →
    ∃ u v, lastDotSplit l = some (u, v) ∧ p.length ≤ u.length := by
  induction p with
  | nil =>
    intro l q d hl hd
    subst hl
    cases hrec : lastDotSplit (d :: q) with
    | some pv =>
      rcases pv with ⟨u0, v0⟩
      refine ⟨'.' :: u0, v0, ?_, by simp⟩
      show lastDotSplit ('.' :: (d :: q)) = some ('.' :: u0, v0)
      rw [lastDotSplit_cons, hrec]
    | none =>
      refine ⟨[], d :: q, ?_, by simp⟩
      show lastDotSplit ('.' :: (d :: q)) = some ([], d :: q)
      rw [lastDotSplit_cons, hrec]
      rw [if_pos (by simp [headWord, hd])]
  | cons x p2 ih =>
    intro l q d hl hd
    subst hl
    rcases ih (p2 ++ '.' :: d :: q) q d rfl hd with ⟨u0, v0, hsplit, hlen⟩
    refine ⟨x :: u0, v0, ?_, by simpa using Nat.succ_le_succ hlen⟩
    show lastDotSplit (x :: (p2 ++ '.' :: d :: q)) = some (x :: u0, v0)
    rw [lastDotSplit_cons, hsplit]

theorem takeWhile_all_app (p : Char → Bool) (u r : List Char)
    (h : ∀ c ∈ u, p c = true) :
    (u ++ r).takeWhile p = u ++ r.takeWhile p := by
  induction u with
  | nil => simp
  | cons c cs ih =>
    rw [List.cons_append, List.takeWhile_cons, if_pos (h c (by simp))]
    rw [ih (fun x hx => h x (by simp [hx]))]
    rfl

theorem dropWhile_all_app (p : Char → Bool) (u r : List Char)
    (h : ∀ c ∈ u, p c = true) :
    (u ++ r).dropWhile p = r.dropWhile p := by
  induction u with
  | nil => simp
  | cons c cs ih =>
    rw [List.cons_append, List.dropWhile_cons, if_pos (h c (by simp))]
    exact ih (fun x hx => h x (by simp [hx]))

theorem domainMatch_some (u : List Char) (d : Char) (v : List Char)
    (hu : u ≠ []) (hall : ∀ c ∈ u, isA c = true) (hd : wordChar d = true) :
    domainMatch (u ++ '.' :: d :: v) ≠ none := by
  have hrun : (u ++ '.' :: d :: v).takeWhile isA
      = u ++ '.' :: d :: (v.takeWhile isA) := by
    rw [takeWhile_all_app isA u _ hall]
    rw [List.takeWhile_cons, if_pos (by decide)]
    rw [List.takeWhile_cons, if_pos (isA_of_word d hd)]
  rcases lastDotSplit_after u ((u ++ '.' :: d :: v).takeWhile isA)
      (v.takeWhile isA) d hrun hd with ⟨u1, v1, hsplit, hlen⟩
  have hne : ¬ (u1.isEmpty = true) := by
    cases hc : u1 with
    | nil =>
      rw [hc] at hlen
      simp only [List.length_nil, Nat.le_zero] at hlen
      exact absurd (List.length_eq_zero.mp hlen) hu
    | cons y ys => simp
  rw [domainMatch, hsplit]
  show (if u1.isEmpty = true then none
    else some (v1.dropWhile wordChar ++ (u ++ '.' :: d :: v).dropWhile isA)) ≠ none
  rw [if_neg hne]
  simp

theorem matchEmail_some_shape (c : Char) (cs2 u : List Char) (d : Char) (v : List Char)
    (hc : isA c = true) (hcs : cs2 = u ++ '.' :: d :: v) (hu : u ≠ [])
    (hall : ∀ x ∈ u, isA x = true) (hd : wordChar d = true) :
    matchEmail (c :: '@' :: cs2) ≠ none := by
  have h1 : (c :: '@' :: cs2).dropWhile isA = '@' :: cs2 := by
    rw [List.dropWhile_cons, if_pos hc, List.dropWhile_cons, if_neg (by decide)]
  have h2 : (c :: '@' :: cs2).takeWhile isA = [c] := by
    rw [List.takeWhile_cons, if_pos hc, List.takeWhile_cons, if_neg (by decide)]
  rw [matchEmail, h1]
  show (if ((c :: '@' :: cs2).takeWhile isA).isEmpty = true then none
    else domainMatch cs2) ≠ none
  rw [h2, if_neg (by simp)]
  subst hcs
  exact domainMatch_some u d v hu hall hd

theorem no_shape_pre (a : List Char) :
    ∀ (s b w : List Char), a ≠ [] → (∀ c ∈ a, isA c = true) →
      b ≠ [] → (∀ c ∈ b, isA c = true) → w ≠ [] → (∀ c ∈ w, wordChar c = true) →
      ¬ (a ++ '@' :: b ++ '.' :: w) <+: subEmail s := by
  induction a with
  | nil => intro s b w ha _ _ _ _ _ _; exact ha rfl
  | cons c a2 ih =>
    intro s b w _ hall hb hball hw hwall hpre
    have hpre' : (c :: (a2 ++ '@' :: b ++ '.' :: w)) <+: subEmail s := hpre
    rcases subEmail_cons_pre s c _ hpre' with hbr | ⟨cs, rfl, hnm, hpre2⟩
    · have hc := hall c (by simp)
      rw [hbr] at hc
      exact absurd hc (by decide)
    · cases a2 with
      | cons c2 a3 =>
        exact ih cs b w (by simp) (fun x hx => hall x (by simp [hx]))
          hb hball hw hwall hpre2
      | nil =>
        have hpre2' : ('@' :: (b ++ '.' :: w)) <+: subEmail cs := by
          simpa using hpre2
        rcases subEmail_cons_pre cs '@' _ hpre2' with hbr2 | ⟨cs2, rfl, hnm2, hpre3⟩
        · exact absurd hbr2 (by decide)
        · rcases dotword_transfer b hball w hw hwall cs2 hpre3 with
            ⟨u, d, v, hcs2, hu, hd, hlen⟩
          have hune : u ≠ [] := by
            intro h0
            rw [h0] at hlen
            simp only [List.length_nil, Nat.le_zero] at hlen
            exact hb (List.length_eq_zero.mp hlen)
          exact absurd hnm
            (matchEmail_some_shape c cs2 u d v (hall c (by simp)) hcs2 hune hu hd)

theorem pre_append_split (t P Z : List Char) (h : t <+: P ++ Z) :
    t <+: P ∨ ∃ r, t = P ++ r ∧ r <+: Z := by
  induction P generalizing t with
  | nil =>
    right
    exact ⟨t, by simp, by simpa using h⟩
  | cons p P2 ih =>
    cases t with
    | nil => left; exact ⟨p :: P2, rfl⟩
    | cons x xs =>
      obtain ⟨r, hr⟩ := h
      have hr' : x :: (xs ++ r) = p :: (P2 ++ Z) := by simpa using hr
      obtain ⟨rfl, htail⟩ := (List.cons.injEq _ _ _ _).mp hr'
      rcases ih xs ⟨r, htail⟩ with hleft | ⟨r2, hr2, hz⟩
      · left
        obtain ⟨r3, hr3⟩ := hleft
        exact ⟨r3, by rw [List.cons_append, hr3]⟩
      · right
        exact ⟨r2, by rw [hr2]; rfl, hz⟩

theorem inf_cons_split (t : List Char) (y : Char) (l : List Char)
    (h : t <:+: y :: l) : t <+: y :: l ∨ t <:+: l := by
  obtain ⟨u, v, huv⟩ := h
  cases u with
  | nil => left; exact ⟨v, by simpa using huv⟩
  | cons a u2 =>
    right
    have huv' : a :: (u2 ++ t ++ v) = y :: l := by simpa using huv
    obtain ⟨-, htail⟩ := (List.cons.injEq _ _ _ _).mp huv'
    exact ⟨u2, v, htail⟩

theorem pre_to_inf (t l : List Char) (h : t <+: l) : t <:+: l := by
  obtain ⟨w, hw⟩ := h
  exact ⟨[], w, by simpa using hw⟩

theorem inf_cons_lift (t : List Char) (y : Char) (l : List Char)
    (h : t <:+: l) : t <:+: y :: l := by
  obtain ⟨u, v, huv⟩ := h
  exact ⟨y :: u, v, by rw [← huv]; rfl⟩

theorem suf_cons_lift (t : List Char) (y : Char) (l : List Char)
    (h : t <:+ l) : t <:+ y :: l := by
  obtain ⟨p, hp⟩ := h
  exact ⟨y :: p, by rw [← hp]; rfl⟩

theorem inf_append_split (t Y Z : List Char) (h : t <:+: Y ++ Z) :
    t <:+: Y ∨ t <:+: Z ∨
      ∃ t1 t2, t = t1 ++ t2 ∧ t1 ≠ [] ∧ t2 ≠ [] ∧ t1 <:+ Y ∧ t2 <+: Z := by
  induction Y generalizing t with
  | nil => right; left; simpa using h
  | cons y Y2 ih =>
    rcases inf_cons_split t y (Y2 ++ Z) (by simpa using h) with hpre | hinf
    · rcases pre_append_split t (y :: Y2) Z hpre with hp | ⟨r, rfl, hz⟩
      · left; exact pre_to_inf _ _ hp
      · by_cases hr : r = []
        · left
          subst hr
          exact ⟨[], [], by simp⟩
        · right; right
          exact ⟨y :: Y2, r, rfl, by simp, hr, ⟨[], rfl⟩, hz⟩
    · rcases ih t hinf with h1 | h2 | ⟨t1, t2, rfl, hne1, hne2, hsuf, hpre2⟩
      · left; exact inf_cons_lift t y Y2 h1
      · right; left; exact h2
      · right; right
        exact ⟨t1, t2, rfl, hne1, hne2, suf_cons_lift t1 y Y2 hsuf, hpre2⟩

theorem shape_at (t : List Char) (h : EmailShape t) : '@' ∈ t := by
  obtain ⟨a, b, w, -, -, -, -, -, -, ht⟩ := h
  rw [ht]
  simp

theorem shape_chars (t : List Char) (h : EmailShape t) :
    ∀ c ∈ t, isA c = true ∨ c = '@' := by
  obtain ⟨a, b, w, -, hallA, -, hballA, -, hwall, ht⟩ := h
  intro c hc
  rw [ht] at hc
  rcases List.mem_append.mp hc with hc1 | hc2
  · rcases List.mem_append.mp hc1 with hca | hcb
    · exact Or.inl (hallA c hca)
    · rcases List.mem_cons.mp hcb with rfl | hcb2
      · exact Or.inr rfl
      · exact Or.inl (hballA c hcb2)
  · rcases List.mem_cons.mp hc2 with rfl | hcw
    · exact Or.inl (by decide)
    · exact Or.inl (isA_of_word c (hwall c hcw))

theorem shape_ne_nil (t : List Char) (h : EmailShape t) : t ≠ [] := by
  intro h0
  have := shape_at t h
  rw [h0] at this
  cases this

theorem marker_suf_mem (t1 : List Char) (h : t1 <:+ markerL) (hne : t1 ≠ []) :
    ']' ∈ t1 := by
  obtain ⟨p, hp⟩ := h
  cases hr : t1.reverse with
  | nil =>
    have : t1 = [] := by simpa using congrArg List.reverse hr
    exact absurd this hne
  | cons x xs =>
    have h2 : markerL.reverse = x :: (xs ++ p.reverse) := by
      rw [← hp, List.reverse_append, hr]
      rfl
    have h4 : markerL.reverse.head? = some x := by rw [h2]; rfl
    have h5 : markerL.reverse.head? = some ']' := by decide
    have hx : x = ']' := Option.some_inj.mp (h4.symm.trans h5)
    have : ']' ∈ t1.reverse := by rw [hr, hx]; simp
    exact List.mem_reverse.mp this

theorem subEmail_no_email : ∀ (n : Nat) (s : List Char), s.length ≤ n →
    ¬ containsEmail (subEmail s) := by
  intro n
  induction n using Nat.strong_induction_on with
  | _ n ih =>
    intro s hs hcon
    obtain ⟨t, hshape, hinf⟩ := hcon
    cases s with
    | nil =>
      rw [subEmail_nil] at hinf
      obtain ⟨u, v, huv⟩ := hinf
      have ht0 : t = [] := by
        have hlen := congrArg List.length huv
        simp only [List.length_append, List.length_nil] at hlen
        exact List.length_eq_zero.mp (by omega)
      exact shape_ne_nil t hshape ht0
    | cons c cs =>
      rw [subEmail_cons] at hinf
      cases hm : matchEmail (c :: cs) with
      | some rest =>
        rw [hm] at hinf
        rcases inf_append_split t markerL (subEmail rest) hinf with h1 | h2 | h3
        · obtain ⟨u, v, huv⟩ := h1
          have hat : '@' ∈ t := shape_at t hshape
          have : '@' ∈ markerL := by
            rw [← huv]
            simp [hat]
          exact absurd this (by decide)
        · have hlen := matchEmail_length _ _ hm
          simp only [List.length_cons] at hlen hs
          exact ih rest.length (by omega) rest (le_refl _) ⟨t, hshape, h2⟩
        · obtain ⟨t1, t2, heq, hne1, hne2, hsuf, hpre⟩ := h3
          have hmem : ']' ∈ t1 := marker_suf_mem t1 hsuf hne1
          have hmt : ']' ∈ t := by rw [heq]; simp [hmem]
          rcases shape_chars t hshape ']' hmt with hA | hAt
          · exact absurd hA (by decide)
          · exact absurd hAt (by decide)
      | none =>
        rw [hm] at hinf
        rcases inf_cons_split t c (subEmail cs) hinf with hpre | hinf2
        · obtain ⟨a, b, w, ha, hallA, hb, hballA, hw, hwall, ht⟩ := hshape
          subst ht
          have hpre2 : (a ++ '@' :: b ++ '.' :: w) <+: subEmail (c :: cs) := by
            rw [subEmail_cons, hm]
            exact hpre
          exact no_shape_pre a (c :: cs) b w ha hallA hb hballA hw hwall hpre2
        · simp only [List.length_cons] at hs
          exact ih cs.length (by omega) cs (le_refl _) ⟨t, hshape, hinf2⟩

theorem matchEmail_shape (t r : List Char) (h : matchEmail t = some r) :
    ∃ t0, EmailShape t0 ∧ t0 <+: t := by
  rw [matchEmail] at h
  split at h
  · rename_i rest hdw
    split at h
    · cases h
    · rename_i hrun
      rw [domainMatch] at h
      split at h
      · rename_i u v hld
        split at h
        · cases h
        · rename_i hune
          obtain ⟨hrun2, d, w2, hv, hd⟩ := lastDotSplit_eq _ _ _ hld
          subst hv
          refine ⟨(t.takeWhile isA) ++ '@' :: u ++ '.' :: [d], ?_, ?_⟩
          · refine ⟨t.takeWhile isA, u, [d], ?_, ?_, ?_, ?_, by simp, ?_, rfl⟩
            · intro h0
              rw [h0] at hrun
              exact hrun rfl
            · intro c hc
              exact List.mem_takeWhile_imp hc
            · intro h0
              rw [h0] at hune
              exact hune rfl
            · intro c hc
              have hmem : c ∈ rest.takeWhile isA := by
                rw [hrun2]
                simp [hc]
              exact List.mem_takeWhile_imp hmem
            · intro c hc
              have : c = d := by simpa using hc
              rw [this]
              exact hd
          · have hrest : rest = (u ++ '.' :: d :: w2) ++ rest.dropWhile isA := by
              conv_lhs => rw [← List.takeWhile_append_dropWhile isA rest]
              rw [hrun2]
            refine ⟨w2 ++ rest.dropWhile isA, ?_⟩
            conv_rhs => rw [← List.takeWhile_append_dropWhile isA t, hdw, hrest]
            simp
      · cases h
  · cases h

theorem noMatch_of_no_email (l : List Char) (h : ¬ containsEmail l) :
    ∀ u, u <:+ l → matchEmail u = none := by
  intro u hsuf
  cases hm : matchEmail u with
  | none => rfl
  | some r =>
    obtain ⟨t0, hshape, hpre⟩ := matchEmail_shape u r hm
    obtain ⟨w, hw⟩ := hpre
    obtain ⟨p, hp⟩ := hsuf
    refine absurd ⟨t0, hshape, p, w, ?_⟩ h
    rw [← hp, ← hw, List.append_assoc]

theorem subEmail_fix (s : List Char) (h : ∀ u, u <:+ s → matchEmail u = none) :
    subEmail s = s := by
  induction s with
  | nil => rfl
  | cons c cs ih =>
    rw [subEmail_cons, h (c :: cs) ⟨[], rfl⟩]
    show c :: subEmail cs = c :: cs
    rw [ih (fun u hu => h u (suf_cons_lift u c cs hu))]

theorem contains_of_has (l : List Char) (h : hasEmailShape l = true) :
    containsEmail l := by
  rw [hasEmailShape] at h
  obtain ⟨t, ht, hsome⟩ := List.any_eq_true.mp h
  have hsuf : t <:+ l := (List.mem_tails _ _).mp ht
  cases hm : matchEmail t with
  | none => rw [hm] at hsome; cases hsome
  | some r =>
    obtain ⟨t0, hshape, hpre⟩ := matchEmail_shape t r hm
    obtain ⟨w, hw⟩ := hpre
    obtain ⟨p, hp⟩ := hsuf
    refine ⟨t0, hshape, p, w, ?_⟩
    rw [← hp, ← hw, List.append_assoc]

theorem has_eq_false (l : List Char) (h : ¬ containsEmail l) :
    hasEmailShape l = false := by
  cases hb : hasEmailShape l with
  | false => rfl
  | true => exact absurd (contains_of_has l hb) h

/-! ### Lemmas about whitespace collapsing and stripping -/

theorem collapseWs_one (c : Char) :
    collapseWs [c] = if isWs c then [' '] else [c] := by
  rw [collapseWs]

theorem collapseWs_two (c d : Char) (cs : List Char) :
    collapseWs (c :: d :: cs) =
      if isWs c && isWs d then collapseWs (d :: cs)
      else (if isWs c then ' ' else c) :: collapseWs (d :: cs) := by
  rw [collapseWs]

theorem collapse_head_ws (cs2 : List Char) : ∀ d, isWs d = true →
    ∃ r, collapseWs (d :: cs2) = ' ' :: r := by
  induction cs2 with
  | nil =>
    intro d hd
    exact ⟨[], by rw [collapseWs_one, if_pos hd]⟩
  | cons e cs3 ih =>
    intro d hd
    by_cases he : isWs e = true
    · obtain ⟨r, hr⟩ := ih e he
      exact ⟨r, by rw [collapseWs_two, if_pos (by simp [hd, he]), hr]⟩
    · refine ⟨collapseWs (e :: cs3), ?_⟩
      rw [collapseWs_two, if_neg (by simp [he]), if_pos hd]

theorem collapse_head_nonws (d : Char) (cs2 : List Char) (hd : isWs d = false) :
    ∃ r, collapseWs (d :: cs2) = d :: r := by
  cases cs2 with
  | nil => exact ⟨[], by rw [collapseWs_one, if_neg (by simp [hd])]⟩
  | cons e cs3 =>
    refine ⟨collapseWs (e :: cs3), ?_⟩
    rw [collapseWs_two, if_neg (by simp [hd]), if_neg (by simp [hd])]

theorem pre_collapse (s : List Char) :
    ∀ t : List Char, (∀ c ∈ t, isWs c = false) → t <+: collapseWs s → t <+: s := by
  induction s with
  | nil =>
    intro t h hpre
    exact hpre
  | cons c cs ih =>
    intro t h hpre
    cases t with
    | nil => exact ⟨c :: cs, rfl⟩
    | cons x xs =>
      cases cs with
      | nil =>
        rw [collapseWs_one] at hpre
        by_cases hc : isWs c = true
        · rw [if_pos hc] at hpre
          obtain ⟨w, hw⟩ := hpre
          have hw' : x :: (xs ++ w) = [' '] := by simpa using hw
          obtain ⟨hx, -⟩ := (List.cons.injEq _ _ _ _).mp hw'
          have hxws := h x (by simp)
          rw [hx] at hxws
          exact absurd hxws (by decide)
        · rw [if_neg hc] at hpre
          exact hpre
      | cons d cs2 =>
        rw [collapseWs_two] at hpre
        by_cases hcd : (isWs c && isWs d) = true
        · rw [if_pos hcd] at hpre
          simp only [Bool.and_eq_true] at hcd
          obtain ⟨r, hr⟩ := collapse_head_ws cs2 d hcd.2
          rw [hr] at hpre
          obtain ⟨w, hw⟩ := hpre
          have hw' : x :: (xs ++ w) = ' ' :: r := by simpa using hw
          obtain ⟨hx, -⟩ := (List.cons.injEq _ _ _ _).mp hw'
          have hxws := h x (by simp)
          rw [hx] at hxws
          exact absurd hxws (by decide)
        · rw [if_neg hcd] at hpre
          by_cases hc : isWs c = true
          · rw [if_pos hc] at hpre
            obtain ⟨w, hw⟩ := hpre
            have hw' : x :: (xs ++ w) = ' ' :: collapseWs (d :: cs2) := by simpa using hw
            obtain ⟨hx, -⟩ := (List.cons.injEq _ _ _ _).mp hw'
            have hxws := h x (by simp)
            rw [hx] at hxws
            exact absurd hxws (by decide)
          · rw [if_neg hc] at hpre
            obtain ⟨w, hw⟩ := hpre
            have hw' : x :: (xs ++ w) = c :: collapseWs (d :: cs2) := by simpa using hw
            obtain ⟨hx, htail⟩ := (List.cons.injEq _ _ _ _).mp hw'
            subst hx
            have hxs : xs <+: d :: cs2 :=
              ih xs (fun y hy => h y (by simp [hy])) ⟨w, htail⟩
            obtain ⟨w2, hw2⟩ := hxs
            exact ⟨w2, by rw [List.cons_append, hw2]⟩

theorem inf_collapse (s : List Char) :
    ∀ t : List Char, (∀ c ∈ t, isWs c = false) → t <:+: collapseWs s →
      t <:+: s := by
  induction s with
  | nil =>
    intro t h hinf
    exact hinf
  | cons c cs ih =>
    intro t h hinf
    cases cs with
    | nil =>
      by_cases hc : isWs c = true
      · rw [collapseWs_one, if_pos hc] at hinf
        rcases inf_cons_split t ' ' [] hinf with hpre | hinf2
        · cases t with
          | nil => exact ⟨[], [c], rfl⟩
          | cons x xs =>
            obtain ⟨w, hw⟩ := hpre
            have hw' : x :: (xs ++ w) = ' ' :: [] := by simpa using hw
            obtain ⟨hx, -⟩ := (List.cons.injEq _ _ _ _).mp hw'
            have hxws := h x (by simp)
            rw [hx] at hxws
            exact absurd hxws (by decide)
        · obtain ⟨u, v, huv⟩ := hinf2
          have ht : t = [] := by
            have hlen := congrArg List.length huv
            simp only [List.length_append, List.length_nil] at hlen
            exact List.length_eq_zero.mp (by omega)
          subst ht
          exact ⟨[], [c], rfl⟩
      · rw [collapseWs_one, if_neg hc] at hinf
        exact hinf
    | cons d cs2 =>
      rw [collapseWs_two] at hinf
      by_cases hcd : (isWs c && isWs d) = true
      · rw [if_pos hcd] at hinf
        exact inf_cons_lift t c _ (ih t h hinf)
      · rw [if_neg hcd] at hinf
        rcases inf_cons_split t _ _ hinf with hpre | hinf2
        · cases t with
          | nil => exact ⟨[], c :: d :: cs2, rfl⟩
          | cons x xs =>
            obtain ⟨w, hw⟩ := hpre
            have hw' : x :: (xs ++ w) =
                (if isWs c then ' ' else c) :: collapseWs (d :: cs2) := by
              simpa using hw
            obtain ⟨hx, htail⟩ := (List.cons.injEq _ _ _ _).mp hw'
            by_cases hc : isWs c = true
            · rw [if_pos hc] at hx
              have hxws := h x (by simp)
              rw [hx] at hxws
              exact absurd hxws (by decide)
            · rw [if_neg hc] at hx
              subst hx
              have hxs : xs <+: d :: cs2 :=
                pre_collapse (d :: cs2) xs (fun y hy => h y (by simp [hy]))
                  ⟨w, htail⟩
              obtain ⟨w2, hw2⟩ := hxs
              exact pre_to_inf _ _ ⟨w2, by rw [List.cons_append, hw2]⟩
        · exact inf_cons_lift t c _ (ih t h hinf2)

theorem collapse_all_space (s : List Char) :
    ∀ c ∈ collapseWs s, isWs c = true → c = ' ' := by
  induction s with
  | nil =>
    intro c hc
    cases hc
  | cons a cs ih =>
    cases cs with
    | nil =>
      rw [collapseWs_one]
      by_cases ha : isWs a = true
      · rw [if_pos ha]
        intro c hc _
        simpa using hc
      · rw [if_neg ha]
        intro c hc hw
        have hca : c = a := by simpa using hc
        rw [hca] at hw
        exact absurd hw ha
    | cons d cs2 =>
      rw [collapseWs_two]
      by_cases hcd : (isWs a && isWs d) = true
      · rw [if_pos hcd]
        exact ih
      · rw [if_neg hcd]
        by_cases ha : isWs a = true
        · rw [if_pos ha]
          intro c hc hw
          rcases List.mem_cons.mp hc with rfl | hc2
          · rfl
          · exact ih c hc2 hw
        · rw [if_neg ha]
          intro c hc hw
          rcases List.mem_cons.mp hc with rfl | hc2
          · exact absurd hw ha
          · exact ih c hc2 hw

theorem collapse_chain (s : List Char) :
    (collapseWs s).Chain' (fun a b => ¬(isWs a = true ∧ isWs b = true)) := by
  induction s with
  | nil => simp [collapseWs]
  | cons a cs ih =>
    cases cs with
    | nil =>
      rw [collapseWs_one]
      by_cases ha : isWs a = true
      · rw [if_pos ha]; simp
      · rw [if_neg ha]; simp
    | cons d cs2 =>
      rw [collapseWs_two]
      by_cases hcd : (isWs a && isWs d) = true
      · rw [if_pos hcd]
        exact ih
      · rw [if_neg hcd]
        refine List.chain'_cons'.mpr ⟨?_, ih⟩
        intro b hb
        by_cases hd : isWs d = true
        · have ha : isWs a = false := by
            cases hae : isWs a
            · rfl
            · exfalso
              rw [hae, hd] at hcd
              exact hcd rfl
          rw [if_neg (by simp [ha])]
          rintro ⟨h1, -⟩
          rw [ha] at h1
          cases h1
        · have hd' : isWs d = false := by simpa using hd
          obtain ⟨r, hr⟩ := collapse_head_nonws d cs2 hd'
          rw [hr] at hb
          have hbd : d = b := by simpa using hb
          subst hbd
          rintro ⟨-, h2⟩
          exact hd h2

theorem collapse_fix (t : List Char) (h1 : ∀ c ∈ t, isWs c = true → c = ' ')
    (h2 : t.Chain' (fun a b => ¬(isWs a = true ∧ isWs b = true))) :
    collapseWs t = t := by
  induction t with
  | nil => rfl
  | cons a cs ih =>
    cases cs with
    | nil =>
      rw [collapseWs_one]
      by_cases ha : isWs a = true
      · rw [if_pos ha, h1 a (by simp) ha]
      · rw [if_neg ha]
    | cons d cs2 =>
      rw [collapseWs_two]
      have hnad : ¬(isWs a = true ∧ isWs d = true) := (List.chain'_cons.mp h2).1
      rw [if_neg (by simpa [Bool.and_eq_true] using hnad)]
      have hrec : collapseWs (d :: cs2) = d :: cs2 :=
        ih (fun c hc hw => h1 c (by simp [hc]) hw) (List.chain'_cons.mp h2).2
      rw [hrec]
      by_cases ha : isWs a = true
      · rw [if_pos ha, h1 a (by simp) ha]
      · rw [if_neg ha]

theorem dropWhile_head_false (p : Char → Bool) (l : List Char) :
    l.dropWhile p = [] ∨ ∃ x xs, l.dropWhile p = x :: xs ∧ p x = false := by
  induction l with
  | nil => left; rfl
  | cons c cs ih =>
    rw [List.dropWhile_cons]
    by_cases hc : p c = true
    · rw [if_pos hc]
      exact ih
    · rw [if_neg hc]
      right
      exact ⟨c, cs, rfl, by simpa using hc⟩

theorem dropWhile_idem (p : Char → Bool) (l : List Char) :
    (l.dropWhile p).dropWhile p = l.dropWhile p := by
  rcases dropWhile_head_false p l with h | ⟨x, xs, h, hx⟩
  · rw [h]
    rfl
  · rw [h, List.dropWhile_cons, if_neg (by simp [hx])]

theorem dropWhile_suf (p : Char → Bool) (l : List Char) : l.dropWhile p <:+ l := by
  induction l with
  | nil => exact ⟨[], rfl⟩
  | cons c cs ih =>
    rw [List.dropWhile_cons]
    by_cases hc : p c = true
    · rw [if_pos hc]
      exact suf_cons_lift _ c cs ih
    · rw [if_neg hc]

theorem pyStrip_pre (l : List Char) : pyStrip l <+: l.dropWhile isWs := by
  obtain ⟨p, hp⟩ := dropWhile_suf isWs (l.dropWhile isWs).reverse
  refine ⟨p.reverse, ?_⟩
  have h2 := congrArg List.reverse hp
  rw [List.reverse_append, List.reverse_reverse] at h2
  exact h2

theorem pyStrip_inf (l : List Char) : pyStrip l <:+: l := by
  obtain ⟨w, hw⟩ := pyStrip_pre l
  obtain ⟨q, hq⟩ := dropWhile_suf isWs l
  exact ⟨q, w, by rw [List.append_assoc, hw, hq]⟩

theorem pyStrip_idem (l : List Char) : pyStrip (pyStrip l) = pyStrip l := by
  have hstep1 : (pyStrip l).dropWhile isWs = pyStrip l := by
    rcases hh : pyStrip l with _ | ⟨x, xs⟩
    · rfl
    · have hpre := pyStrip_pre l
      rw [hh] at hpre
      obtain ⟨w, hw⟩ := hpre
      rcases dropWhile_head_false isWs l with h0 | ⟨y, ys, h0, hy⟩
      · rw [h0] at hw
        cases hw
      · rw [h0] at hw
        have hw' : x :: (xs ++ w) = y :: ys := by simpa using hw
        obtain ⟨rfl, -⟩ := (List.cons.injEq _ _ _ _).mp hw'
        rw [List.dropWhile_cons, if_neg (by simp [hy])]
  show (((pyStrip l).dropWhile isWs).reverse.dropWhile isWs).reverse = pyStrip l
  rw [hstep1]
  have hrev : (pyStrip l).reverse = (l.dropWhile isWs).reverse.dropWhile isWs := by
    show ((((l.dropWhile isWs).reverse.dropWhile isWs).reverse).reverse) = _
    rw [List.reverse_reverse]
  rw [hrev, dropWhile_idem]
  rfl

theorem mem_of_inf (t l : List Char) (h : t <:+: l) (c : Char) (hc : c ∈ t) :
    c ∈ l := by
  obtain ⟨u, v, huv⟩ := h
  rw [← huv]
  simp [hc]

theorem chain_of_inf {R : Char → Char → Prop} (t l : List Char) (hinf : t <:+: l)
    (h : l.Chain' R) : t.Chain' R := by
  obtain ⟨u, v, huv⟩ := hinf
  rw [← huv] at h
  have h1 := (List.chain'_append.mp h).1
  exact (List.chain'_append.mp h1).2.1

theorem ws_false_of_isA (c : Char) (h : isA c = true) : isWs c = false := by
  cases hw : isWs c with
  | false => rfl
  | true =>
    exfalso
    have hcases : c = ' ' ∨ c = '\t' ∨ c = '\n' ∨ c = '\r' ∨ c = '\x0b' ∨
        c = '\x0c' := by
      simpa [isWs, or_assoc] using hw
    rcases hcases with rfl | rfl | rfl | rfl | rfl | rfl <;>
      exact absurd h (by decide)

theorem cleanTextL_no_email (l : List Char) : ¬ containsEmail (cleanTextL l) := by
  intro hcon
  obtain ⟨t, hshape, hinf⟩ := hcon
  have hws : ∀ c ∈ t, isWs c = false := by
    intro c hc2
    rcases shape_chars t hshape c hc2 with hA | rfl
    · exact ws_false_of_isA c hA
    · decide
  have h1 : t <:+: collapseWs (subEmail l) := by
    obtain ⟨u1, v1, h1⟩ := hinf
    obtain ⟨u2, v2, h2⟩ := pyStrip_inf (collapseWs (subEmail l))
    have h1a : u1 ++ t ++ v1 = pyStrip (collapseWs (subEmail l)) := h1
    exact ⟨u2 ++ u1, v1 ++ v2, by
      rw [← h2, ← h1a]
      simp [List.append_assoc]⟩
  have h2 : t <:+: subEmail l := inf_collapse (subEmail l) t hws h1
  exact subEmail_no_email l.length l (le_refl _) ⟨t, hshape, h2⟩

theorem cleanTextL_idem (l : List Char) :
    cleanTextL (cleanTextL l) = cleanTextL l := by
  have hne := cleanTextL_no_email l
  have hsub : subEmail (cleanTextL l) = cleanTextL l :=
    subEmail_fix _ (noMatch_of_no_email _ hne)
  have hp1 : ∀ c ∈ cleanTextL l, isWs c = true → c = ' ' := by
    intro c hc hw
    have hmem : c ∈ collapseWs (subEmail l) :=
      mem_of_inf _ _ (pyStrip_inf _) c hc
    exact collapse_all_space _ c hmem hw
  have hp2 : (cleanTextL l).Chain'
      (fun a b => ¬(isWs a = true ∧ isWs b = true)) :=
    chain_of_inf _ _ (pyStrip_inf _) (collapse_chain _)
  show pyStrip (collapseWs (subEmail (cleanTextL l))) = cleanTextL l
  rw [hsub, collapse_fix _ hp1 hp2]
  exact pyStrip_idem _

/-- C6: `clean_text` maps a missing or empty cell to the empty string,
replaces e-mail-shaped substrings with the exact redaction marker and
collapses whitespace with trimming, so its output never contains an
e-mail-shaped substring; cleaning
"contact me at a.b-c@d.com today" yields
"contact me at [e-mail removido] today", and internal whitespace runs
collapse to single spaces. -/
theorem C6_clean_text :
    cleanTextCell none = "" ∧
    cleanTextCell (some "") = "" ∧
    (∀ s : String, hasEmailShape (cleanTextStr s).data = false) ∧
    cleanTextStr "contact me at a.b-c@d.com today" =
      "contact me at [e-mail removido] today" ∧
    cleanTextStr "a\n\n  b\tc" = "a b c" := by
  refine ⟨rfl, by decide, ?_, by decide, by decide⟩
  intro s
  have h : (cleanTextStr s).data = cleanTextL s.data := rfl
  rw [h]
  exact has_eq_false _ (cleanTextL_no_email s.data)

/-- C7: `clean_text` is idempotent on strings: cleaning an already-cleaned
string returns it unchanged. -/
theorem C7_clean_text_idempotent :
    ∀ s : String, cleanTextStr (cleanTextStr s) = cleanTextStr s := by
  intro s
  show String.mk (cleanTextL (String.mk (cleanTextL s.data)).data) = _
  have h : (String.mk (cleanTextL s.data)).data = cleanTextL s.data := rfl
  rw [h, cleanTextL_idem]
  rfl

/-- C3 witness: the row-content part of the frequency statement applied to
the example column. -/
theorem C3_witness :
    ("Yes", 3) ∈ freqTable [some "Yes", some "No", some "Yes", some "Yes"] ∧
      ("Yes" ∈ cleanedList [some "Yes", some "No", some "Yes", some "Yes"] ∧
        3 = (cleanedList [some "Yes", some "No", some "Yes", some "Yes"]).count "Yes") :=
  ⟨by decide,
    (C3_freq_behaviour.1 [some "Yes", some "No", some "Yes", some "Yes"]).2.2.1
      ("Yes", 3) (by decide)⟩
